import Mathlib

/-!
Shallow embedding of `src/transaction.rs` (a UTXO-style transaction core).

Modelling conventions:
* Rust `String` values (transaction ids, hex digests, addresses) are modelled
  as their UTF-8 byte sequences, `List Nat`.
* Rust `Vec<u8>` is `List Nat`.
* Rust `i32` is `Int`; where the code converts with `as usize` or serializes
  a fixed-width integer, the wrap-around is made explicit with `% 2^w`.
* `HashMap<String, Transaction>` is an association list looked up by key.
* The external crates (`crypto::sha2`, `crypto::ed25519`, `bitcoincash_addr`,
  `rand::OsRng`) are opaque collaborators of this core: they enter the model
  as explicit function parameters (`sha`, an `Ed` scheme, `addrDecode`, an
  `entropy` buffer), exactly at the call sites the source uses them.
* Fallible operations return `Except Err _`; a Rust `panic!`/`unwrap` abort
  is one of the `Err.panic*` constructors, distinct from the tagged
  `format_err!` failures the code returns as `Err(..)`.
-/

/-- Model of `struct TXInput`: `txid`/`pub_key`/`signature` byte sequences and
the `i32` output index `vout`. -/
structure TXInput where
  txid : List Nat
  vout : Int
  signature : List Nat
  pub_key : List Nat
  deriving DecidableEq

instance : Inhabited TXInput := ⟨⟨[], 0, [], []⟩⟩

/-- Model of `struct TXOutput`. -/
structure TXOutput where
  value : Int
  pub_key_hash : List Nat
  deriving DecidableEq

instance : Inhabited TXOutput := ⟨⟨0, []⟩⟩

/-- Model of `struct Transaction`. -/
structure Transaction where
  id : List Nat
  vin : List TXInput
  vout : List TXOutput
  deriving DecidableEq

instance : Inhabited Transaction := ⟨⟨[], [], []⟩⟩

/-- Outcomes of the fallible operations. The `panic` constructors model the
process aborts the source reaches through `unwrap()` or out-of-range
indexing; the others model the `format_err!` values it returns as `Err`. -/
inductive Err where
  | insufficientFunds (balance : Int)
  | unresolvedPrev
  | panicMissingPrevTx
  | panicAddrDecode
  | panicIndexOutOfBounds
  deriving DecidableEq

/-- An ed25519-style signature scheme, kept abstract: `sign msg priv` and
`verify msg pub sig`, mirroring `crypto::ed25519::signature/verify`. -/
structure Ed where
  sign : List Nat → List Nat → List Nat
  verify : List Nat → List Nat → List Nat → Bool

/-- Replace the element at index `i` (no-op past the end), used to model the
in-place updates `tx_copy.vin[in_id].field = ..`. -/
def modifyIdx (f : α → α) : Nat → List α → List α
  | _, [] => []
  | 0, a :: as => f a :: as
  | n + 1, a :: as => a :: modifyIdx f n as

/-- Association-list lookup, modelling `HashMap::get` (keys are unique in a
`HashMap`, so first-match lookup is the map's semantics). -/
def alookup (k : List Nat) : List (List Nat × Transaction) → Option Transaction
  | [] => none
  | p :: ps => if p.fst = k then some p.snd else alookup k ps

/-- Little-endian base-256 digits, width `w`: the fixed-width integer encoding
bincode uses (`u64` length prefixes, `i32` fields). -/
def bytesLE : Nat → Nat → List Nat
  | 0, _ => []
  | w + 1, n => n % 256 :: bytesLE w (n / 256)

/-- Little-endian base-256 decoder, used only in proofs about `bytesLE`. -/
def decLE : List Nat → Nat
  | [] => 0
  | b :: bs => b + 256 * decLE bs

/-- Bincode encoding of a byte string / `String`: u64 little-endian length
prefix, then the bytes. -/
def encBytes (b : List Nat) : List Nat := bytesLE 8 b.length ++ b

/-- Bincode encoding of an `i32`: 4 bytes little-endian, two's complement. -/
def encI32 (v : Int) : List Nat := bytesLE 4 (v % (2 ^ 32 : Int)).toNat

/-- Bincode encoding of a `TXInput`, fields in declaration order. -/
def encIn (v : TXInput) : List Nat :=
  encBytes v.txid ++ encI32 v.vout ++ encBytes v.signature ++ encBytes v.pub_key

/-- Bincode encoding of a `TXOutput`, fields in declaration order. -/
def encOut (o : TXOutput) : List Nat :=
  encI32 o.value ++ encBytes o.pub_key_hash

/-- Bincode encoding of a whole `Transaction` (`bincode::serialize`): fields in
declaration order, each `Vec` with a u64 length prefix. -/
def serializeTx (t : Transaction) : List Nat :=
  encBytes t.id ++ bytesLE 8 t.vin.length ++ (t.vin.map encIn).flatten
    ++ bytesLE 8 t.vout.length ++ (t.vout.map encOut).flatten

/-- Rust `as usize` on the `i32` field `vout`: sign-extension to the 64-bit
machine word, made explicit as a wrap modulo `2^64`. -/
def usizeOfI32 (v : Int) : Nat := (v % (2 ^ 64 : Int)).toNat

/-- Model of `Transaction::hash`: clone, clear `id`, serialize with bincode,
digest. `sha` stands for the composition of Sha256 with `result_str()` (the
lowercase-hex rendering), so it maps the encoded bytes to the id's bytes. -/
def Transaction.hash (sha : List Nat → List Nat) (self : Transaction) : List Nat :=
  sha (serializeTx { self with id := [] })

/-- One input of a trimmed copy: `txid`/`vout` kept, `signature` and `pub_key`
cleared (the loop body of `Transaction::trim_copy`). -/
def trimIn (v : TXInput) : TXInput :=
  { txid := v.txid, vout := v.vout, signature := [], pub_key := [] }

/-- Model of `Transaction::trim_copy`: same `id`, inputs trimmed, outputs
rebuilt with the same `value` and `pub_key_hash`. -/
def Transaction.trim_copy (self : Transaction) : Transaction :=
  { id := self.id
    vin := self.vin.map trimIn
    vout := self.vout.map fun v => { value := v.value, pub_key_hash := v.pub_key_hash } }

/-- Model of `Transaction::is_coinbase`: exactly one input, empty `txid`,
`vout == -1`. -/
def Transaction.is_coinbase (self : Transaction) : Bool :=
  self.vin.length == 1 && (self.vin.getD 0 default).txid == []
    && (self.vin.getD 0 default).vout == -1

/-- The up-front loop shared by `sign` and `verify`:
`for vin in &self.vin { if prev_txs.get(&vin.txid).unwrap().id.is_empty() { return Err } }`.
A missing key is the `unwrap()` abort; a present transaction with an empty id
is the tagged `format_err!` failure. -/
def checkPrevTxs (prevs : List (List Nat × Transaction)) : List TXInput → Except Err Unit
  | [] => .ok ()
  | v :: vs =>
    match alookup v.txid prevs with
    | none => .error .panicMissingPrevTx
    | some t => if t.id = [] then .error .unresolvedPrev else checkPrevTxs prevs vs

/-- The per-input signing message, extracted from the loop bodies of `sign`
and `verify`: the hash of the trimmed copy with input `i`'s `pub_key` replaced
by the referenced previous output's lock. -/
def sighashAt (sha : List Nat → List Nat) (t : Transaction) (i : Nat)
    (lock : List Nat) : List Nat :=
  Transaction.hash sha
    { t.trim_copy with
      vin := modifyIdx (fun v => { v with pub_key := lock }) i t.trim_copy.vin }

/-- The canonical byte encoding that `sighashAt` digests, named so that the
collision-freeness hypothesis of the sighash-distinctness claim can mention
the two encodings explicitly. -/
def sighashEnc (t : Transaction) (i : Nat) (lock : List Nat) : List Nat :=
  serializeTx
    { id := []
      vin := modifyIdx (fun v => { v with pub_key := lock }) i t.trim_copy.vin
      vout := t.trim_copy.vout }

/-- The lock (`prev_tx.vout[vout as usize].pub_key_hash`) input `j` of `t`
resolves to under `prevs`; total via defaults, used to state what `sign`
stores. -/
def lockAt (prevs : List (List Nat × Transaction)) (t : Transaction) (j : Nat) : List Nat :=
  match alookup (t.vin.getD j default).txid prevs with
  | some ptx =>
      (ptx.vout.getD (usizeOfI32 (t.vin.getD j default).vout) default).pub_key_hash
  | none => []

/-- The loop of `Transaction::verify`, iterating `in_id` over `0..n` where
`n = self.vin.len()` is fixed at loop entry. `copy` threads the mutable
`tx_copy`; each iteration clears the copy's signature at `i`, substitutes the
previous output's lock for its `pub_key`, rehashes, restores the `pub_key`,
and checks the stored signature against the hash. -/
def Transaction.verifyFrom (sha : List Nat → List Nat) (ed : Ed)
    (prevs : List (List Nat × Transaction)) (self : Transaction) (n : Nat)
    (copy : Transaction) (i : Nat) : Except Err Bool :=
  if i < n then
    if hv : i < self.vin.length then
      let vini := self.vin.get ⟨i, hv⟩
      match alookup vini.txid prevs with
      | none => .error .panicMissingPrevTx
      | some prevTx =>
        let idx := usizeOfI32 vini.vout
        if hx : idx < prevTx.vout.length then
          let c2 := { copy with
            vin := modifyIdx (fun v => { v with signature := [] }) i copy.vin }
          let c3 := { c2 with
            vin := modifyIdx
              (fun v => { v with pub_key := (prevTx.vout.get ⟨idx, hx⟩).pub_key_hash })
              i c2.vin }
          let c4 := { c3 with id := Transaction.hash sha c3 }
          let c5 := { c4 with
            vin := modifyIdx (fun v => { v with pub_key := [] }) i c4.vin }
          if ed.verify c4.id vini.pub_key vini.signature then
            Transaction.verifyFrom sha ed prevs self n c5 (i + 1)
          else .ok false
        else .error .panicIndexOutOfBounds
    else .error .panicIndexOutOfBounds
  else .ok true
termination_by n - i

/-- Model of `Transaction::verify`: coinbase short-circuit, up-front
resolution check, then the per-input loop over the trimmed copy. -/
def Transaction.verify (sha : List Nat → List Nat) (ed : Ed) (self : Transaction)
    (prevs : List (List Nat × Transaction)) : Except Err Bool :=
  if self.is_coinbase then .ok true
  else
    match checkPrevTxs prevs self.vin with
    | .error e => .error e
    | .ok () => Transaction.verifyFrom sha ed prevs self self.vin.length self.trim_copy 0

/-- The loop of `Transaction::sign`, iterating `in_id` over `0..n` where
`n = tx_copy.vin.len()` is fixed at loop entry. `self` threads the signed
transaction being mutated; each iteration computes the same per-input hash as
verification and stores `ed25519::signature(hash, private_key)` into
`self.vin[i].signature`. -/
def Transaction.signFrom (sha : List Nat → List Nat) (ed : Ed) (priv : List Nat)
    (prevs : List (List Nat × Transaction)) (n : Nat) (self copy : Transaction)
    (i : Nat) : Transaction × Except Err Unit :=
  if i < n then
    if hc : i < copy.vin.length then
      let cini := copy.vin.get ⟨i, hc⟩
      match alookup cini.txid prevs with
      | none => (self, .error .panicMissingPrevTx)
      | some prevTx =>
        let idx := usizeOfI32 cini.vout
        if hx : idx < prevTx.vout.length then
          let c2 := { copy with
            vin := modifyIdx (fun v => { v with signature := [] }) i copy.vin }
          let c3 := { c2 with
            vin := modifyIdx
              (fun v => { v with pub_key := (prevTx.vout.get ⟨idx, hx⟩).pub_key_hash })
              i c2.vin }
          let c4 := { c3 with id := Transaction.hash sha c3 }
          let c5 := { c4 with
            vin := modifyIdx (fun v => { v with pub_key := [] }) i c4.vin }
          let s := ed.sign c4.id priv
          Transaction.signFrom sha ed priv prevs n
            { self with vin := modifyIdx (fun v => { v with signature := s }) i self.vin }
            c5 (i + 1)
        else (self, .error .panicIndexOutOfBounds)
    else (self, .error .panicIndexOutOfBounds)
  else (self, .ok ())
termination_by n - i

/-- Model of `Transaction::sign`. The Rust method mutates `self` and returns
`Result<()>`; the model returns the final state of `self` paired with the
result, so the error paths exhibit the state the caller's binding is left
with. -/
def Transaction.sign (sha : List Nat → List Nat) (ed : Ed) (priv : List Nat)
    (self : Transaction) (prevs : List (List Nat × Transaction)) :
    Transaction × Except Err Unit :=
  if self.is_coinbase then (self, .ok ())
  else
    match checkPrevTxs prevs self.vin with
    | .error e => (self, .error e)
    | .ok () =>
        Transaction.signFrom sha ed priv prevs self.trim_copy.vin.length self
          self.trim_copy 0

/-- Model of `TXOutput::lock`: `Address::decode(address).unwrap().body` stored
into `pub_key_hash`. `addrDecode` stands for the external `bitcoincash_addr`
decoder (`none` for a malformed address, on which the source's `unwrap()`
aborts the process). -/
def TXOutput.lock (addrDecode : List Nat → Option (List Nat)) (self : TXOutput)
    (address : List Nat) : Except Err TXOutput :=
  match addrDecode address with
  | none => .error .panicAddrDecode
  | some pkh => .ok { self with pub_key_hash := pkh }

/-- Model of `TXOutput::new`: build with an empty lock, then `lock` it to the
address. -/
def TXOutput.new (addrDecode : List Nat → Option (List Nat)) (value : Int)
    (address : List Nat) : Except Err TXOutput :=
  TXOutput.lock addrDecode { value := value, pub_key_hash := [] } address

/-- The coinbase reward constant `SUBSIDY`. -/
def SUBSIDY : Int := 10

/-- Bytes of `format!("Reward to '\x7b\x7d'", to)` for an address already given
as bytes. -/
def rewardNote (toAddr : List Nat) : List Nat :=
  ((String.toUTF8 "Reward to \x27").toList.map UInt8.toNat) ++ toAddr
    ++ ((String.toUTF8 "\x27").toList.map UInt8.toNat)

/-- Model of `Transaction::new_coinbase`. `entropy` stands for the 32 random
bytes `OsRng` fills into `key`; the source initialises `key` to 32 zero bytes
and overwrites it with entropy only when `data` is empty (in which branch it
also replaces `data` with the generated reward note). -/
def Transaction.new_coinbase (sha : List Nat → List Nat)
    (addrDecode : List Nat → Option (List Nat)) (toAddr data entropy : List Nat) :
    Except Err Transaction := do
  let key : List Nat := if data = [] then entropy else List.replicate 32 0
  let data2 : List Nat := if data = [] then rewardNote toAddr else data
  let pub_key := data2 ++ key
  let out ← TXOutput.new addrDecode SUBSIDY toAddr
  let tx : Transaction :=
    { id := []
      vin := [{ txid := [], vout := -1, signature := [], pub_key := pub_key }]
      vout := [out] }
  pure { tx with id := Transaction.hash sha tx }

/-- Model of `Transaction::new_utxo`. The external collaborators enter as
parameters: `walletPub`/`walletSecret`/`walletAddr` are the wallet's key pair
and address, `accV` is the coin selector's result
`(accumulated value, [(txid, output indices)])` from
`utxo.find_spendable_outputs`, and `prevs` is the previous-transaction map the
blockchain's `sign_transacton` resolves. Modelled from the spec: the external
`Blockchain::sign_transacton` (not under `src/`) resolves each input's
previous transaction and invokes `Transaction::sign`, per spec section 4.1
("assigns id, then immediately invokes signing, requiring the external
previous-transaction resolver"). -/
def Transaction.new_utxo (sha : List Nat → List Nat) (ed : Ed)
    (addrDecode : List Nat → Option (List Nat))
    (walletPub walletSecret walletAddr : List Nat) (toAddr : List Nat) (amount : Int)
    (accV : Int × List (List Nat × List Int))
    (prevs : List (List Nat × Transaction)) : Except Err Transaction :=
  if accV.fst < amount then .error (.insufficientFunds accV.fst)
  else do
    let vin : List TXInput :=
      (accV.snd.map fun txp =>
        txp.snd.map fun out =>
          ({ txid := txp.fst, vout := out, signature := [], pub_key := walletPub } :
            TXInput)).flatten
    let out1 ← TXOutput.new addrDecode amount toAddr
    let vout ←
      if accV.fst > amount then do
        let out2 ← TXOutput.new addrDecode (accV.fst - amount) walletAddr
        pure [out1, out2]
      else pure [out1]
    let tx0 : Transaction := { id := [], vin := vin, vout := vout }
    let tx1 := { tx0 with id := Transaction.hash sha tx0 }
    match Transaction.sign sha ed walletSecret tx1 prevs with
    | (_, .error e) => .error e
    | (tx2, .ok ()) => pure tx2

/-! ### Basic lemmas about the list helpers -/

@[simp]
theorem modifyIdx_nil (f : α → α) (i : Nat) : modifyIdx f i ([] : List α) = [] := by
  cases i <;> rfl

@[simp]
theorem length_modifyIdx (f : α → α) (i : Nat) (l : List α) :
    (modifyIdx f i l).length = l.length := by
  induction l generalizing i with
  | nil => simp
  | cons a as ih =>
    cases i with
    | zero => rfl
    | succ n => simp [modifyIdx, ih]

theorem getElem_modifyIdx (f : α → α) (i j : Nat) (l : List α)
    (hj : j < l.length) (hj2 : j < (modifyIdx f i l).length) :
    (modifyIdx f i l)[j] = if i = j then f l[j] else l[j] := by
  induction l generalizing i j with
  | nil => simp at hj
  | cons a as ih =>
    cases i with
    | zero =>
      cases j with
      | zero => simp [modifyIdx]
      | succ m => simp [modifyIdx]
    | succ n =>
      cases j with
      | zero => simp [modifyIdx]
      | succ m =>
        have hm : m < as.length := by simpa using hj
        have hm2 : m < (modifyIdx f n as).length := by simpa using hm
        simp only [modifyIdx, List.getElem_cons_succ]
        rw [ih n m hm hm2]
        simp only [Nat.succ_eq_add_one, Nat.add_right_cancel_iff]

theorem modifyIdx_modifyIdx (f g : α → α) (i : Nat) (l : List α) :
    modifyIdx f i (modifyIdx g i l) = modifyIdx (fun a => f (g a)) i l := by
  induction l generalizing i with
  | nil => simp
  | cons a as ih =>
    cases i with
    | zero => rfl
    | succ n => simp [modifyIdx, ih]

theorem modifyIdx_eq_self (f : α → α) (i : Nat) (l : List α)
    (h : ∀ hi : i < l.length, f l[i] = l[i]) : modifyIdx f i l = l := by
  induction l generalizing i with
  | nil => simp
  | cons a as ih =>
    cases i with
    | zero =>
      have := h (by simp)
      simpa [modifyIdx] using this
    | succ n =>
      simp only [modifyIdx, List.cons.injEq, true_and]
      exact ih n fun hi => h (by simpa using hi)

theorem map_modifyIdx (g : α → β) (f : α → α) (i : Nat) (l : List α)
    (h : ∀ a, g (f a) = g a) : (modifyIdx f i l).map g = l.map g := by
  induction l generalizing i with
  | nil => simp
  | cons a as ih =>
    cases i with
    | zero => simp [modifyIdx, h]
    | succ n => simp [modifyIdx, ih]

/-! ### Lemmas about trimming and hashing -/

@[simp]
theorem trim_copy_vin (t : Transaction) : t.trim_copy.vin = t.vin.map trimIn := rfl

@[simp]
theorem trim_copy_vout (t : Transaction) : t.trim_copy.vout = t.vout := by
  show t.vout.map (fun v => { value := v.value, pub_key_hash := v.pub_key_hash }) = t.vout
  simp

@[simp]
theorem trim_copy_id (t : Transaction) : t.trim_copy.id = t.id := rfl

theorem hash_congr (sha : List Nat → List Nat) (t1 t2 : Transaction)
    (h1 : t1.vin = t2.vin) (h2 : t1.vout = t2.vout) :
    Transaction.hash sha t1 = Transaction.hash sha t2 := by
  unfold Transaction.hash serializeTx
  rw [show ({ t1 with id := [] } : Transaction).vin = t2.vin from h1,
    show ({ t1 with id := [] } : Transaction).vout = t2.vout from h2]

/-! ### Concrete sample data used by the witnesses -/

/-- The identity digest, a collision-free stand-in for the abstract `sha`. -/
def idSha : List Nat → List Nat := fun l => l

/-- A toy signature scheme satisfying the round-trip contract for every key
pair: the signature is the message itself and verification compares them. -/
def edRoundtrip : Ed := { sign := fun m _ => m, verify := fun m _ s => s == m }

/-- A signature scheme that rejects everything, for exercising paths that must
not consult it. -/
def edReject : Ed := { sign := fun m _ => m, verify := fun _ _ _ => false }

def sampleSpendIn : TXInput := { txid := [7], vout := 0, signature := [1], pub_key := [2] }

def sampleOut : TXOutput := { value := 3, pub_key_hash := [4] }

def sampleTxA : Transaction := { id := [], vin := [sampleSpendIn], vout := [sampleOut] }

def sampleTxB : Transaction := { id := [9, 9], vin := [sampleSpendIn], vout := [sampleOut] }

/-- Claim C2: `Transaction::hash` depends only on the inputs and outputs — two
transactions with equal `vin` and equal `vout` (their `id` fields arbitrary,
one possibly empty and one set) hash to the same hex string, and hashing the
same transaction twice yields the same id. -/
theorem c2_hash_pure (sha : List Nat → List Nat) (t1 t2 : Transaction)
    (h1 : t1.vin = t2.vin) (h2 : t1.vout = t2.vout) :
    Transaction.hash sha t1 = Transaction.hash sha t2 ∧
      Transaction.hash sha t1 = Transaction.hash sha t1 :=
  ⟨hash_congr sha t1 t2 h1 h2, rfl⟩

theorem c2_witness :
    sampleTxA.vin = sampleTxB.vin ∧
      Transaction.hash idSha sampleTxA = Transaction.hash idSha sampleTxB :=
  ⟨rfl, (c2_hash_pure idSha sampleTxA sampleTxB rfl rfl).1⟩

/-- Claim C3: when the coin selector's accumulated total is strictly below the
requested amount, `Transaction::new_utxo` fails with the insufficient-funds
error carrying that balance, before any input or output is built: the result
is this error for every wallet, recipient, address decoder and resolver, so no
transaction value is constructed or returned. -/
theorem c3_insufficient_funds (sha : List Nat → List Nat) (ed : Ed)
    (addrDecode : List Nat → Option (List Nat))
    (walletPub walletSecret walletAddr toAddr : List Nat) (amount : Int)
    (accV : Int × List (List Nat × List Int))
    (prevs : List (List Nat × Transaction)) (hlt : accV.fst < amount) :
    Transaction.new_utxo sha ed addrDecode walletPub walletSecret walletAddr
        toAddr amount accV prevs = .error (.insufficientFunds accV.fst) := by
  unfold Transaction.new_utxo
  rw [if_pos hlt]

theorem c3_witness :
    ((50 : Int), ([] : List (List Nat × List Int))).fst < 100 ∧
      Transaction.new_utxo idSha edRoundtrip (fun _ => none) [] [] [] [] 100
          (50, []) [] = .error (.insufficientFunds 50) :=
  ⟨by decide, c3_insufficient_funds idSha edRoundtrip (fun _ => none) [] [] [] []
    100 (50, []) [] (by decide)⟩

/-- Claim C8: `Transaction::is_coinbase` returns `true` exactly when the
transaction has a single input whose `txid` is empty and whose `vout` is
`-1`. -/
theorem c8_coinbase_iff (tx : Transaction) :
    tx.is_coinbase = true ↔
      ∃ v : TXInput, tx.vin = [v] ∧ v.txid = [] ∧ v.vout = -1 := by
  unfold Transaction.is_coinbase
  cases hv : tx.vin with
  | nil => simp [hv]
  | cons a as =>
    cases as with
    | nil =>
      simp only [hv, List.length_singleton, List.getD_cons_zero]
      constructor
      · intro h
        simp only [Bool.and_eq_true, beq_iff_eq] at h
        exact ⟨a, rfl, h.1.2, h.2⟩
      · rintro ⟨v, hv2, ht, hvo⟩
        obtain rfl : a = v := by injection hv2
        simp [ht, hvo]
    | cons b bs => simp [hv]

/-- Claim C9: a coinbase transaction verifies as `Ok(true)` for every
previous-transaction map and every digest and signature scheme — in
particular regardless of the content of its input's `signature` field, since
no lookup, hashing or signature check is reached. -/
theorem c9_coinbase_verifies (sha : List Nat → List Nat) (ed : Ed)
    (tx : Transaction) (prevs : List (List Nat × Transaction))
    (h : tx.is_coinbase = true) :
    Transaction.verify sha ed tx prevs = .ok true := by
  unfold Transaction.verify
  rw [h]
  rfl

/-- A coinbase transaction whose single input carries a garbage signature. -/
def sampleCoinbase : Transaction :=
  { id := [5], vin := [{ txid := [], vout := -1, signature := [9, 9, 9], pub_key := [2] }],
    vout := [sampleOut] }

theorem c9_witness :
    sampleCoinbase.is_coinbase = true ∧
      Transaction.verify idSha edReject sampleCoinbase [] = .ok true :=
  ⟨by decide, c9_coinbase_verifies idSha edReject sampleCoinbase [] (by decide)⟩

/-- Claim C5 is contradicted by the code: evaluating the model at the claim's
inputs shows the `unwrap()` abort paths are reachable from the public
interface. `TXOutput::new` on an address the decoder rejects reaches
`Address::decode(address).unwrap()` and aborts the process, and
`Transaction::verify` on a spend input whose `txid` has no entry in the
previous-transaction map reaches `prev_txs.get(&vin.txid).unwrap()` and
aborts — neither returns a tagged recoverable failure. -/
theorem c5_panic_paths_reachable :
    TXOutput.new (fun _ => none) 5 [65] = .error .panicAddrDecode ∧
      Transaction.verify idSha edRoundtrip
          { id := [1], vin := [sampleSpendIn], vout := [] } [] =
        .error .panicMissingPrevTx :=
  ⟨rfl, rfl⟩

/-- Claim C10: with a non-empty note, `new_coinbase` appends the untouched
32-zero-byte entropy buffer to the note, so the single input's declared
public key is the note followed by exactly 32 zero bytes, and the result —
in particular the id — does not depend on the entropy at all: two coinbase
transactions for the same recipient and the same non-empty note are
identical. -/
theorem c10_coinbase_note_padding (sha : List Nat → List Nat)
    (addrDecode : List Nat → Option (List Nat)) (toAddr data e1 e2 pkh : List Nat)
    (hdata : data ≠ []) (hdec : addrDecode toAddr = some pkh) :
    Transaction.new_coinbase sha addrDecode toAddr data e1 =
        Transaction.new_coinbase sha addrDecode toAddr data e2 ∧
      ∃ t : Transaction,
        Transaction.new_coinbase sha addrDecode toAddr data e1 = .ok t ∧
          (t.vin.getD 0 default).pub_key = data ++ List.replicate 32 0 ∧
          t.vin.length = 1 := by
  simp only [Transaction.new_coinbase, TXOutput.new, TXOutput.lock, if_neg hdata, hdec]
  constructor
  · exact trivial
  · exact ⟨_, rfl, rfl, rfl⟩

theorem c10_witness :
    ([97] : List Nat) ≠ [] ∧ (fun (_ : List Nat) => some [9]) [65] = some [9] ∧
      Transaction.new_coinbase idSha (fun _ => some [9]) [65] [97]
          (List.replicate 32 7) =
        Transaction.new_coinbase idSha (fun _ => some [9]) [65] [97]
          (List.replicate 32 8) :=
  ⟨by decide, rfl,
    (c10_coinbase_note_padding idSha (fun _ => some [9]) [65] [97]
      (List.replicate 32 7) (List.replicate 32 8) [9] (by decide) rfl).1⟩

/-! ### The up-front resolution check -/

theorem checkPrevTxs_ok (prevs : List (List Nat × Transaction)) (vin : List TXInput)
    (h : ∀ v ∈ vin, ∃ t, alookup v.txid prevs = some t ∧ t.id ≠ []) :
    checkPrevTxs prevs vin = .ok () := by
  induction vin with
  | nil => rfl
  | cons v vs ih =>
    obtain ⟨t, hl, hne⟩ := h v (by simp)
    simp only [checkPrevTxs, hl, if_neg hne]
    exact ih fun w hw => h w (by simp [hw])

theorem checkPrevTxs_unresolved (prevs : List (List Nat × Transaction))
    (vin : List TXInput)
    (hall : ∀ v ∈ vin, ∃ t, alookup v.txid prevs = some t)
    (hbad : ∃ v ∈ vin, ∃ t, alookup v.txid prevs = some t ∧ t.id = []) :
    checkPrevTxs prevs vin = .error .unresolvedPrev := by
  induction vin with
  | nil => simp at hbad
  | cons v vs ih =>
    obtain ⟨t, hl⟩ := hall v (by simp)
    by_cases he : t.id = []
    · simp [checkPrevTxs, hl, he]
    · simp only [checkPrevTxs, hl, if_neg he]
      refine ih (fun w hw => hall w (by simp [hw])) ?_
      obtain ⟨w, hw, t2, hl2, he2⟩ := hbad
      rcases List.mem_cons.mp hw with rfl | hw2
      · rw [hl] at hl2
        exact absurd (Option.some.inj hl2 ▸ he2) he
      · exact ⟨w, hw2, t2, hl2, he2⟩

/-- Claim C4: for a non-coinbase transaction whose inputs' keys are all
present in the previous-transaction map, if any input's previous transaction
has an empty id (the not-found sentinel), the up-front check makes both
`sign` and `verify` return the unresolved-previous-transaction error before
any sighash is computed — `sign` returns with the transaction exactly as it
was, no signature field written. -/
theorem c4_unresolved_prev (sha : List Nat → List Nat) (ed : Ed) (priv : List Nat)
    (prevs : List (List Nat × Transaction)) (tx : Transaction)
    (hnc : tx.is_coinbase = false)
    (hall : ∀ v ∈ tx.vin, ∃ t, alookup v.txid prevs = some t)
    (hbad : ∃ v ∈ tx.vin, ∃ t, alookup v.txid prevs = some t ∧ t.id = []) :
    Transaction.sign sha ed priv tx prevs = (tx, .error .unresolvedPrev) ∧
      Transaction.verify sha ed tx prevs = .error .unresolvedPrev := by
  have hc := checkPrevTxs_unresolved prevs tx.vin hall hbad
  constructor
  · unfold Transaction.sign
    rw [hnc, hc]
    rfl
  · unfold Transaction.verify
    rw [hnc, hc]
    rfl

/-- A previous transaction carrying the empty-id "not found" sentinel. -/
def emptyIdTx : Transaction := { id := [], vin := [], vout := [] }

/-- A 1-input spend transaction whose input references `emptyIdTx`. -/
def c4Tx : Transaction := { id := [2], vin := [sampleSpendIn], vout := [] }

theorem c4_witness :
    c4Tx.is_coinbase = false ∧
      Transaction.sign idSha edRoundtrip [3] c4Tx [([7], emptyIdTx)] =
        (c4Tx, .error .unresolvedPrev) ∧
      Transaction.verify idSha edRoundtrip c4Tx [([7], emptyIdTx)] =
        .error .unresolvedPrev := by
  refine ⟨by decide, ?_⟩
  exact c4_unresolved_prev idSha edRoundtrip [3] [([7], emptyIdTx)] c4Tx (by decide)
    (fun v hv => by
      simp only [c4Tx, List.mem_singleton] at hv
      subst hv
      exact ⟨emptyIdTx, rfl⟩)
    ⟨sampleSpendIn, by simp [c4Tx], emptyIdTx, rfl, rfl⟩

/-! ### Frame property of the signing loop -/

/-- Setting an input's signature leaves its other three fields unchanged, at
every position. -/
theorem sigset_fields (s : List Nat) (i j : Nat) (l : List TXInput)
    (hj : j < l.length)
    (hj2 : j < (modifyIdx (fun v => { v with signature := s }) i l).length) :
    ((modifyIdx (fun v => { v with signature := s }) i l)[j]).txid = (l[j]).txid ∧
      ((modifyIdx (fun v => { v with signature := s }) i l)[j]).vout = (l[j]).vout ∧
      ((modifyIdx (fun v => { v with signature := s }) i l)[j]).pub_key =
        (l[j]).pub_key := by
  rw [getElem_modifyIdx _ i j l hj hj2]
  by_cases hij : i = j <;> simp [hij]

theorem signFrom_frame (sha : List Nat → List Nat) (ed : Ed) (priv : List Nat)
    (prevs : List (List Nat × Transaction)) (k n : Nat) :
    ∀ (self copy : Transaction) (i : Nat) (tx' : Transaction), n - i = k →
      Transaction.signFrom sha ed priv prevs n self copy i = (tx', .ok ()) →
      tx'.id = self.id ∧ tx'.vout = self.vout ∧
        tx'.vin.length = self.vin.length ∧
        ∀ (j : Nat) (hj : j < self.vin.length) (hj2 : j < tx'.vin.length),
          (tx'.vin[j]).txid = (self.vin[j]).txid ∧
            (tx'.vin[j]).vout = (self.vin[j]).vout ∧
            (tx'.vin[j]).pub_key = (self.vin[j]).pub_key := by
  induction k with
  | zero =>
    intro self copy i tx' hk h
    rw [Transaction.signFrom, if_neg (by omega)] at h
    injection h with h1 h2
    subst h1
    exact ⟨rfl, rfl, rfl, fun j hj hj2 => ⟨rfl, rfl, rfl⟩⟩
  | succ k ih =>
    intro self copy i tx' hk h
    rw [Transaction.signFrom] at h
    by_cases hin : i < n
    · rw [if_pos hin] at h
      simp only [] at h
      split at h
      · -- i < copy.vin.length: case-split on the map lookup
        split at h
        · simp at h
        · -- the lookup found a previous transaction
          split at h
          · -- valid output index: the loop recurses after setting signature i
            obtain ⟨h1, h2, h3, h4⟩ := ih _ _ (i + 1) tx' (by omega) h
            refine ⟨h1, h2, by simpa using h3, ?_⟩
            intro j hj hj2
            obtain ⟨g1, g2, g3⟩ := h4 j (by simpa using hj) hj2
            obtain ⟨f1, f2, f3⟩ := sigset_fields _ i j self.vin hj (by simpa using hj)
            exact ⟨g1.trans f1, g2.trans f2, g3.trans f3⟩
          · simp at h
      · simp at h
    · rw [if_neg hin] at h
      injection h with h1 h2
      subst h1
      exact ⟨rfl, rfl, rfl, fun j hj hj2 => ⟨rfl, rfl, rfl⟩⟩

/-- Claim C7: whenever `Transaction::sign` returns `Ok`, the only fields of
the transaction that may have changed are the inputs' `signature` fields: the
`id`, every output, the number of inputs, and every input's `txid`, `vout`
and declared `pub_key` are identical before and after the call. -/
theorem c7_sign_frame (sha : List Nat → List Nat) (ed : Ed) (priv : List Nat)
    (prevs : List (List Nat × Transaction)) (tx tx' : Transaction)
    (h : Transaction.sign sha ed priv tx prevs = (tx', .ok ())) :
    tx'.id = tx.id ∧ tx'.vout = tx.vout ∧ tx'.vin.length = tx.vin.length ∧
      ∀ (j : Nat) (hj : j < tx.vin.length) (hj2 : j < tx'.vin.length),
        (tx'.vin[j]).txid = (tx.vin[j]).txid ∧
          (tx'.vin[j]).vout = (tx.vin[j]).vout ∧
          (tx'.vin[j]).pub_key = (tx.vin[j]).pub_key := by
  unfold Transaction.sign at h
  by_cases hcb : tx.is_coinbase
  · rw [if_pos hcb] at h
    injection h with h1 h2
    subst h1
    exact ⟨rfl, rfl, rfl, fun j hj hj2 => ⟨rfl, rfl, rfl⟩⟩
  · rw [if_neg hcb] at h
    split at h
    · simp at h
    · exact signFrom_frame sha ed priv prevs tx.trim_copy.vin.length
        tx.trim_copy.vin.length tx tx.trim_copy 0 tx' (by omega) h

theorem c7_witness :
    Transaction.sign idSha edRoundtrip [3] sampleCoinbase [] =
        (sampleCoinbase, .ok ()) ∧
      ((Transaction.sign idSha edRoundtrip [3] sampleCoinbase []).1).id =
        sampleCoinbase.id :=
  ⟨rfl, (c7_sign_frame idSha edRoundtrip [3] [] sampleCoinbase sampleCoinbase rfl).1⟩

/-! ### Helpers for the sign/verify loop analysis -/

@[simp]
theorem trimIn_txid (v : TXInput) : (trimIn v).txid = v.txid := rfl

@[simp]
theorem trimIn_vout (v : TXInput) : (trimIn v).vout = v.vout := rfl

@[simp]
theorem trimIn_signature (v : TXInput) : (trimIn v).signature = [] := rfl

@[simp]
theorem trimIn_pub_key (v : TXInput) : (trimIn v).pub_key = [] := rfl

theorem usize_le_toNat (v : Int) (hv : 0 ≤ v) : usizeOfI32 v ≤ v.toNat := by
  unfold usizeOfI32
  refine Int.toNat_le_toNat ?_
  by_cases hlt : v < (2 : Int) ^ 64
  · rw [Int.emod_eq_of_lt hv hlt]
  · exact le_of_lt (lt_of_lt_of_le (Int.emod_lt_of_pos v (by positivity)) (not_lt.mp hlt))

/-- Clearing the signature at position `i` of an already-trimmed input list is
a no-op. -/
theorem sigclear_trimmed (i : Nat) (vin : List TXInput) :
    modifyIdx (fun v => { v with signature := [] }) i (vin.map trimIn) =
      vin.map trimIn := by
  refine modifyIdx_eq_self _ i _ fun hi => ?_
  have hi2 : i < vin.length := by simpa using hi
  rw [List.getElem_map]
  simp [trimIn]

/-- Resetting the `pub_key` at position `i` after substituting a lock there
restores an already-trimmed input list. -/
theorem pkreset_trimmed (lock : List Nat) (i : Nat) (vin : List TXInput) :
    modifyIdx (fun v => { v with pub_key := [] }) i
        (modifyIdx (fun v => { v with pub_key := lock }) i (vin.map trimIn)) =
      vin.map trimIn := by
  rw [modifyIdx_modifyIdx]
  refine modifyIdx_eq_self _ i _ fun hi => ?_
  have hi2 : i < vin.length := by simpa using hi
  rw [List.getElem_map]
  simp [trimIn]

/-- The per-input sighash only reads the trimmed inputs and the outputs, so it
is invariant under storing a signature into the transaction. -/
theorem sighashAt_congr (sha : List Nat → List Nat) (t1 t2 : Transaction)
    (hvin : t1.vin.map trimIn = t2.vin.map trimIn) (hvout : t1.vout = t2.vout)
    (i : Nat) (lock : List Nat) :
    sighashAt sha t1 i lock = sighashAt sha t2 i lock := by
  unfold sighashAt
  refine hash_congr sha _ _ ?_ ?_
  · show modifyIdx _ i (t1.vin.map trimIn) = modifyIdx _ i (t2.vin.map trimIn)
    rw [hvin]
  · simpa using hvout

/-- `lockAt` only reads the input's `txid` and `vout`, so it is invariant
under storing a signature into the transaction. -/
theorem lockAt_sigset (prevs : List (List Nat × Transaction)) (t : Transaction)
    (s : List Nat) (i j : Nat) :
    lockAt prevs
        { t with vin := modifyIdx (fun v => { v with signature := s }) i t.vin } j =
      lockAt prevs t j := by
  unfold lockAt
  by_cases hj : j < t.vin.length
  · have hj2 : j < (modifyIdx (fun v => { v with signature := s }) i t.vin).length := by
      simpa using hj
    rw [show ({ t with vin := modifyIdx (fun v => { v with signature := s }) i t.vin } :
        Transaction).vin = modifyIdx (fun v => { v with signature := s }) i t.vin from rfl]
    rw [List.getD_eq_getElem _ _ hj2, List.getD_eq_getElem _ _ hj,
      getElem_modifyIdx _ i j t.vin hj hj2]
    by_cases hij : i = j <;> simp [hij]
  · have hj2 : ¬ j < (modifyIdx (fun v => { v with signature := s }) i t.vin).length := by
      simpa using hj
    rw [show ({ t with vin := modifyIdx (fun v => { v with signature := s }) i t.vin } :
        Transaction).vin = modifyIdx (fun v => { v with signature := s }) i t.vin from rfl]
    rw [List.getD_eq_default _ _ (by omega), List.getD_eq_default _ _ (by omega)]

/-- The hash the loop body computes is exactly `sighashAt`: the `id` field
being hashed is ignored, the inputs are the trimmed ones with the lock
substituted at `i`, and the outputs are the transaction's. -/
theorem hash_pkset (sha : List Nat → List Nat) (t : Transaction) (cid lock : List Nat)
    (i : Nat) :
    Transaction.hash sha
        { id := cid
          vin := modifyIdx (fun v => { v with pub_key := lock }) i (t.vin.map trimIn)
          vout := t.vout } =
      sighashAt sha t i lock := by
  unfold sighashAt
  exact hash_congr sha _ _ rfl (trim_copy_vout t).symm

/-- Storing a signature does not change any per-input sighash. -/
theorem sighashAt_sigset (sha : List Nat → List Nat) (t : Transaction) (s : List Nat)
    (i j : Nat) (lock : List Nat) :
    sighashAt sha
        { t with vin := modifyIdx (fun v => { v with signature := s }) i t.vin } j
        lock =
      sighashAt sha t j lock := by
  refine sighashAt_congr sha _ t ?_ ?_ j lock
  · show (modifyIdx (fun v => { v with signature := s }) i t.vin).map trimIn =
      t.vin.map trimIn
    exact map_modifyIdx trimIn _ i t.vin fun a => rfl
  · rfl

/-- What the signing loop computes when every remaining input resolves: it
returns `Ok` and stores, at every position the loop has visited, the ed25519
signature of that position's sighash; positions before the start index keep
their signatures. -/
theorem signFrom_spec (sha : List Nat → List Nat) (ed : Ed) (priv : List Nat)
    (prevs : List (List Nat × Transaction)) (k n : Nat) :
    ∀ (self copy : Transaction) (i : Nat), n - i = k →
      n = copy.vin.length →
      copy.vin = self.vin.map trimIn →
      copy.vout = self.vout →
      (∀ j (hj : j < self.vin.length), i ≤ j →
        ∃ ptx, alookup ((self.vin[j]).txid) prevs = some ptx ∧
          usizeOfI32 ((self.vin[j]).vout) < ptx.vout.length) →
      ∃ tx', Transaction.signFrom sha ed priv prevs n self copy i = (tx', .ok ()) ∧
        ∀ j (hj : j < self.vin.length) (hj2 : j < tx'.vin.length),
          (j < i → (tx'.vin[j]).signature = (self.vin[j]).signature) ∧
          (i ≤ j → (tx'.vin[j]).signature =
            ed.sign (sighashAt sha self j (lockAt prevs self j)) priv) := by
  induction k with
  | zero =>
    intro self copy i hk hn hcv hvout hres
    have hns : n = self.vin.length := by
      rw [hn, hcv, List.length_map]
    rw [Transaction.signFrom, if_neg (by omega)]
    refine ⟨self, rfl, fun j hj hj2 => ⟨fun _ => rfl, fun hij => ?_⟩⟩
    exact absurd hj (by omega)
  | succ k ih =>
    intro self copy i hk hn hcv hvout hres
    have hin : i < n := by omega
    have hc : i < copy.vin.length := by omega
    have hsi : i < self.vin.length := by
      have hlc := congrArg List.length hcv
      simp only [List.length_map] at hlc
      omega
    obtain ⟨ptx, hl, hx⟩ := hres i hsi (le_refl i)
    rw [Transaction.signFrom, if_pos hin, dif_pos hc]
    simp only []
    have hgi : copy.vin.get ⟨i, hc⟩ = trimIn (self.vin[i]) := by
      simp only [List.get_eq_getElem, hcv, List.getElem_map]
    rw [hgi]
    simp only [trimIn_txid, trimIn_vout]
    rw [hl]
    simp only []
    rw [dif_pos hx]
    rw [hcv, hvout, sigclear_trimmed, pkreset_trimmed]
    have hlock : lockAt prevs self i =
        (ptx.vout.get ⟨usizeOfI32 (self.vin[i]).vout, hx⟩).pub_key_hash := by
      unfold lockAt
      rw [List.getD_eq_getElem self.vin default hsi, hl]
      simp only []
      rw [List.getD_eq_getElem ptx.vout default hx, List.get_eq_getElem]
    rw [hash_pkset sha self copy.id]
    rw [← hlock]
    generalize hS : ed.sign (sighashAt sha self i (lockAt prevs self i)) priv = S
    generalize sighashAt sha self i (lockAt prevs self i) = HID
    obtain ⟨tx', heq, hsig⟩ := ih
      { self with vin := modifyIdx (fun v => { v with signature := S }) i self.vin }
      { id := HID, vin := List.map trimIn self.vin, vout := self.vout } (i + 1)
      (by omega)
      (hn.trans (congrArg List.length hcv))
      ((map_modifyIdx trimIn (fun v => { v with signature := S }) i self.vin
        fun a => rfl).symm)
      rfl
      (by
        intro j hj hij
        have hj0 : j < self.vin.length := by simpa using hj
        have he : (modifyIdx (fun v => { v with signature := S }) i self.vin)[j] =
            self.vin[j] := by
          rw [getElem_modifyIdx _ i j self.vin hj0 (by simpa using hj0),
            if_neg (by omega)]
        show ∃ ptx2,
          alookup ((modifyIdx (fun v => { v with signature := S }) i
            self.vin)[j]).txid prevs = some ptx2 ∧
          usizeOfI32 ((modifyIdx (fun v => { v with signature := S }) i
            self.vin)[j]).vout < ptx2.vout.length
        rw [he]
        exact hres j hj0 (by omega))
    refine ⟨tx', heq, ?_⟩
    intro j hj hj2
    have hjS : j < ({ self with
        vin := modifyIdx (fun v => { v with signature := S }) i self.vin } :
        Transaction).vin.length := by
      simpa using hj
    obtain ⟨ha, hb⟩ := hsig j hjS hj2
    have heS : (modifyIdx (fun v => { v with signature := S }) i self.vin)[j] =
        if i = j then { self.vin[j] with signature := S } else self.vin[j] :=
      getElem_modifyIdx _ i j self.vin hj (by simpa using hj)
    refine ⟨fun hji => ?_, fun hij => ?_⟩
    · rw [ha (by omega)]
      show ((modifyIdx (fun v => { v with signature := S }) i self.vin)[j]).signature =
        (self.vin[j]).signature
      rw [heS, if_neg (by omega)]
    · rcases Nat.lt_or_ge j (i + 1) with hlt | hge
      · have hji : j = i := by omega
        subst hji
        rw [ha hlt]
        show ((modifyIdx (fun v => { v with signature := S }) j self.vin)[j]).signature =
          ed.sign (sighashAt sha self j (lockAt prevs self j)) priv
        rw [heS, if_pos rfl, hS]
      · have hb2 := hb hge
        rw [sighashAt_sigset, lockAt_sigset] at hb2
        exact hb2

/-- The verification loop returns `Ok(true)` when every remaining input
resolves to a valid previous output and its stored signature checks against
that input's sighash. -/
theorem verifyFrom_ok (sha : List Nat → List Nat) (ed : Ed)
    (prevs : List (List Nat × Transaction)) (self : Transaction) (k : Nat) :
    ∀ (copy : Transaction) (i : Nat), self.vin.length - i = k →
      copy.vin = self.vin.map trimIn →
      copy.vout = self.vout →
      (∀ j (hj : j < self.vin.length), i ≤ j →
        ∃ ptx, alookup ((self.vin[j]).txid) prevs = some ptx ∧
          ∃ hx : usizeOfI32 ((self.vin[j]).vout) < ptx.vout.length,
            ed.verify
              (sighashAt sha self j
                ((ptx.vout.get ⟨usizeOfI32 ((self.vin[j]).vout), hx⟩).pub_key_hash))
              ((self.vin[j]).pub_key) ((self.vin[j]).signature) = true) →
      Transaction.verifyFrom sha ed prevs self self.vin.length copy i = .ok true := by
  induction k with
  | zero =>
    intro copy i hk hcv hvout hres
    rw [Transaction.verifyFrom, if_neg (by omega)]
  | succ k ih =>
    intro copy i hk hcv hvout hres
    have hin : i < self.vin.length := by omega
    obtain ⟨ptx, hl, hx, hv⟩ := hres i hin (le_refl i)
    rw [Transaction.verifyFrom, if_pos hin, dif_pos hin]
    simp only [List.get_eq_getElem]
    rw [hl]
    simp only []
    rw [dif_pos hx]
    rw [hcv, hvout, sigclear_trimmed, pkreset_trimmed, hash_pkset sha self copy.id]
    rw [List.get_eq_getElem] at hv
    rw [hv, if_pos rfl]
    exact ih _ (i + 1) (by omega) rfl rfl (fun j hj hij => hres j hj (by omega))

/-- Whether a transaction is coinbase only depends on its input count and the
first input's `txid` and `vout`. -/
theorem is_coinbase_congr (t1 t2 : Transaction)
    (hlen : t1.vin.length = t2.vin.length)
    (h0 : ∀ (h1 : 0 < t1.vin.length) (h2 : 0 < t2.vin.length),
      (t1.vin[0]).txid = (t2.vin[0]).txid ∧ (t1.vin[0]).vout = (t2.vin[0]).vout) :
    t1.is_coinbase = t2.is_coinbase := by
  unfold Transaction.is_coinbase
  by_cases hL : t1.vin.length = 1
  · have hL2 : t2.vin.length = 1 := by omega
    have h1 : 0 < t1.vin.length := by omega
    have h2 : 0 < t2.vin.length := by omega
    obtain ⟨ha, hb⟩ := h0 h1 h2
    rw [List.getD_eq_getElem t1.vin default h1, List.getD_eq_getElem t2.vin default h2,
      ha, hb, hL, hL2]
  · have hL2 : ¬ t2.vin.length = 1 := by omega
    have e1 : (t1.vin.length == 1) = false := by simpa using hL
    have e2 : (t2.vin.length == 1) = false := by simpa using hL2
    rw [e1, e2]
    simp

/-- Claim C1: sign/verify round trip. For a spend (non-coinbase) transaction
each of whose inputs references a resolvable previous transaction (present in
the map, non-empty id, valid output index) and whose declared public keys
match the signing private key (every message signed with `priv` verifies
under them), `sign` returns `Ok` and `verify` on the signed transaction with
the same previous-transaction map returns `Ok(true)`. -/
theorem c1_sign_verify_roundtrip (sha : List Nat → List Nat) (ed : Ed)
    (priv : List Nat) (prevs : List (List Nat × Transaction)) (tx : Transaction)
    (hnc : tx.is_coinbase = false)
    (hres : ∀ i (hi : i < tx.vin.length),
      ∃ ptx, alookup ((tx.vin[i]).txid) prevs = some ptx ∧ ptx.id ≠ [] ∧
        0 ≤ (tx.vin[i]).vout ∧ ((tx.vin[i]).vout).toNat < ptx.vout.length)
    (hkey : ∀ i (hi : i < tx.vin.length) (msg : List Nat),
      ed.verify msg ((tx.vin[i]).pub_key) (ed.sign msg priv) = true) :
    (Transaction.sign sha ed priv tx prevs).2 = .ok () ∧
      Transaction.verify sha ed (Transaction.sign sha ed priv tx prevs).1 prevs =
        .ok true := by
  have husz : ∀ i (hi : i < tx.vin.length),
      ∃ ptx, alookup ((tx.vin[i]).txid) prevs = some ptx ∧
        usizeOfI32 ((tx.vin[i]).vout) < ptx.vout.length := by
    intro i hi
    obtain ⟨ptx, hl, hid, hnn, hlt⟩ := hres i hi
    exact ⟨ptx, hl, lt_of_le_of_lt (usize_le_toNat _ hnn) hlt⟩
  have hcheck : checkPrevTxs prevs tx.vin = .ok () := by
    apply checkPrevTxs_ok
    intro v hv
    obtain ⟨i, hi, rfl⟩ := List.mem_iff_getElem.mp hv
    obtain ⟨ptx, hl, hid, -⟩ := hres i hi
    exact ⟨ptx, hl, hid⟩
  obtain ⟨tx', heq, hsig⟩ := signFrom_spec sha ed priv prevs
    tx.trim_copy.vin.length tx.trim_copy.vin.length tx tx.trim_copy 0 rfl rfl rfl
    (trim_copy_vout tx) (fun j hj _ => husz j hj)
  have hsign : Transaction.sign sha ed priv tx prevs = (tx', .ok ()) := by
    unfold Transaction.sign
    rw [hnc, hcheck]
    exact heq
  obtain ⟨hid', hvout', hlen', hflds⟩ := signFrom_frame sha ed priv prevs
    tx.trim_copy.vin.length tx.trim_copy.vin.length tx tx.trim_copy 0 tx' rfl heq
  have hcb' : tx'.is_coinbase = false :=
    (is_coinbase_congr tx' tx hlen'
      (fun h1 h2 => ⟨(hflds 0 h2 h1).1, (hflds 0 h2 h1).2.1⟩)).trans hnc
  have hcheck' : checkPrevTxs prevs tx'.vin = .ok () := by
    apply checkPrevTxs_ok
    intro v hv
    obtain ⟨i, hi2, rfl⟩ := List.mem_iff_getElem.mp hv
    have hi : i < tx.vin.length := hlen' ▸ hi2
    obtain ⟨ptx, hl, hid, -⟩ := hres i hi
    obtain ⟨ha, -, -⟩ := hflds i hi hi2
    exact ⟨ptx, by rw [ha]; exact hl, hid⟩
  have hver : Transaction.verify sha ed tx' prevs = .ok true := by
    unfold Transaction.verify
    rw [hcb', hcheck']
    refine verifyFrom_ok sha ed prevs tx' tx'.vin.length tx'.trim_copy 0 rfl rfl
      (trim_copy_vout tx') ?_
    intro j hj2 hj0
    have hj : j < tx.vin.length := hlen' ▸ hj2
    obtain ⟨ptx, hl, hid, hnn, hlt⟩ := hres j hj
    obtain ⟨ha, hb, hc2⟩ := hflds j hj hj2
    have hidx : usizeOfI32 ((tx'.vin[j]).vout) = usizeOfI32 ((tx.vin[j]).vout) := by
      rw [hb]
    have hx' : usizeOfI32 ((tx'.vin[j]).vout) < ptx.vout.length := by
      rw [hidx]
      exact lt_of_le_of_lt (usize_le_toNat _ hnn) hlt
    refine ⟨ptx, by rw [ha]; exact hl, hx', ?_⟩
    have hsg := (hsig j hj hj2).2 (Nat.zero_le j)
    rw [hsg, hc2]
    have hlock : (ptx.vout.get ⟨usizeOfI32 ((tx'.vin[j]).vout), hx'⟩).pub_key_hash =
        lockAt prevs tx j := by
      unfold lockAt
      rw [List.getD_eq_getElem tx.vin default hj, hl]
      simp only []
      rw [List.get_eq_getElem,
        List.getD_eq_getElem ptx.vout default (hidx ▸ hx'), ]
      simp only [hidx]
    have htr : tx'.vin.map trimIn = tx.vin.map trimIn := by
      refine List.ext_getElem (by simpa using hlen') ?_
      intro m hm1 hm2
      simp only [List.getElem_map]
      obtain ⟨a1, b1, -⟩ := hflds m (by simpa using hm2) (by simpa using hm1)
      unfold trimIn
      rw [a1, b1]
    have hmsg : sighashAt sha tx' j
        ((ptx.vout.get ⟨usizeOfI32 ((tx'.vin[j]).vout), hx'⟩).pub_key_hash) =
        sighashAt sha tx j (lockAt prevs tx j) := by
      rw [hlock]
      exact sighashAt_congr sha tx' tx htr hvout' j _
    rw [hmsg]
    exact hkey j hj _
  constructor
  · rw [hsign]
  · rw [hsign]
    exact hver

/-- A resolvable previous transaction with a non-empty id and one output. -/
def ptxW : Transaction :=
  { id := [1], vin := [], vout := [{ value := 5, pub_key_hash := [9] }] }

theorem c1_witness :
    (Transaction.sign idSha edRoundtrip [3] sampleTxB [([7], ptxW)]).2 = .ok () ∧
      Transaction.verify idSha edRoundtrip
          (Transaction.sign idSha edRoundtrip [3] sampleTxB [([7], ptxW)]).1
          [([7], ptxW)] = .ok true :=
  c1_sign_verify_roundtrip idSha edRoundtrip [3] [([7], ptxW)] sampleTxB
    (by decide)
    (fun i hi => by
      have h1 : sampleTxB.vin.length = 1 := by decide
      have h0 : i = 0 := by omega
      subst h0
      exact ⟨ptxW, rfl, by decide, by simp [sampleTxB, sampleSpendIn],
        by simp [sampleTxB, sampleSpendIn, ptxW]⟩)
    (fun i hi msg => by simp [edRoundtrip])

/-! ### Injectivity of the fixed-width length prefix -/

theorem length_bytesLE (w n : Nat) : (bytesLE w n).length = w := by
  induction w generalizing n with
  | zero => rfl
  | succ w ih => simp [bytesLE, ih]

theorem decLE_bytesLE (w n : Nat) : decLE (bytesLE w n) = n % 256 ^ w := by
  induction w generalizing n with
  | zero => simp [bytesLE, decLE, Nat.mod_one]
  | succ w ih =>
    simp only [bytesLE, decLE, ih]
    rw [pow_succ', Nat.mod_mul]

theorem bytesLE_inj (a b : Nat) (ha : a < 2 ^ 64) (hb : b < 2 ^ 64)
    (h : bytesLE 8 a = bytesLE 8 b) : a = b := by
  have hd := congrArg decLE h
  rw [decLE_bytesLE, decLE_bytesLE] at hd
  have h256 : (256 : Nat) ^ 8 = 2 ^ 64 := by norm_num
  rw [h256, Nat.mod_eq_of_lt ha, Nat.mod_eq_of_lt hb] at hd
  exact hd

/-- Claim C6: for a 2-input spend transaction whose inputs resolve to previous
outputs with different locks, the two per-input sighash messages differ,
assuming the digest is collision-free on the two (distinct) canonical
encodings; the lock lengths are below `2^64` as for any `Vec` a `usize`
length prefix can describe. -/
theorem c6_sighash_distinct (sha : List Nat → List Nat)
    (prevs : List (List Nat × Transaction)) (tx ptx0 ptx1 : Transaction)
    (L0 L1 : List Nat)
    (h2 : tx.vin.length = 2)
    (hl0 : alookup ((tx.vin.getD 0 default).txid) prevs = some ptx0)
    (hl1 : alookup ((tx.vin.getD 1 default).txid) prevs = some ptx1)
    (hx0 : usizeOfI32 ((tx.vin.getD 0 default).vout) < ptx0.vout.length)
    (hx1 : usizeOfI32 ((tx.vin.getD 1 default).vout) < ptx1.vout.length)
    (hL0 : L0 =
      (ptx0.vout.getD (usizeOfI32 ((tx.vin.getD 0 default).vout)) default).pub_key_hash)
    (hL1 : L1 =
      (ptx1.vout.getD (usizeOfI32 ((tx.vin.getD 1 default).vout)) default).pub_key_hash)
    (hne : L0 ≠ L1) (hb0 : L0.length < 2 ^ 64) (hb1 : L1.length < 2 ^ 64)
    (hcf : sha (sighashEnc tx 0 L0) = sha (sighashEnc tx 1 L1) →
      sighashEnc tx 0 L0 = sighashEnc tx 1 L1) :
    sighashAt sha tx 0 L0 ≠ sighashAt sha tx 1 L1 := by
  intro heq
  have henc : sighashEnc tx 0 L0 = sighashEnc tx 1 L1 := hcf heq
  obtain ⟨v0, v1, hvin⟩ : ∃ v0 v1, tx.vin = [v0, v1] := by
    cases hv : tx.vin with
    | nil => rw [hv] at h2; simp at h2
    | cons a as =>
      cases as with
      | nil => rw [hv] at h2; simp at h2
      | cons b bs =>
        cases bs with
        | nil => exact ⟨a, b, rfl⟩
        | cons c cs => rw [hv] at h2; simp at h2
  simp only [sighashEnc, serializeTx, trim_copy_vin, trim_copy_vout, hvin,
    List.map_cons, List.map_nil, modifyIdx, encIn, trimIn, List.flatten_cons,
    List.flatten_nil, List.append_nil, List.nil_append, List.append_assoc,
    List.length_cons, List.length_nil] at henc
  replace henc := List.append_cancel_left henc
  replace henc := List.append_cancel_left henc
  replace henc := List.append_cancel_left henc
  replace henc := List.append_cancel_left henc
  replace henc := List.append_cancel_left henc
  simp only [encBytes, List.length_nil, List.nil_append, List.append_nil,
    List.append_assoc] at henc
  obtain ⟨hhead, htail⟩ :=
    List.append_inj henc (by rw [length_bytesLE, length_bytesLE])
  have h00 : L0.length = 0 := bytesLE_inj L0.length 0 hb0 (by norm_num) hhead
  have hL0nil : L0 = [] := List.length_eq_zero.mp h00
  subst hL0nil
  simp only [List.nil_append] at htail
  replace htail := List.append_cancel_left htail
  replace htail := List.append_cancel_left htail
  replace htail := List.append_cancel_left htail
  replace htail := List.append_cancel_left htail
  have hlen := congrArg List.length htail
  simp only [List.length_append, length_bytesLE] at hlen
  have h10 : L1.length = 0 := by omega
  exact hne (List.length_eq_zero.mp h10).symm

/-- A 2-input spend transaction whose inputs reference two different previous
transactions. -/
def tx6 : Transaction :=
  { id := [3]
    vin := [{ txid := [1], vout := 0, signature := [], pub_key := [2] },
      { txid := [2], vout := 0, signature := [], pub_key := [2] }]
    vout := [] }

def ptxA : Transaction :=
  { id := [1], vin := [], vout := [{ value := 5, pub_key_hash := [5] }] }

def ptxB : Transaction :=
  { id := [1], vin := [], vout := [{ value := 6, pub_key_hash := [6] }] }

theorem c6_witness :
    sighashAt idSha tx6 0 [5] ≠ sighashAt idSha tx6 1 [6] :=
  c6_sighash_distinct idSha [([1], ptxA), ([2], ptxB)] tx6 ptxA ptxB [5] [6]
    (by decide) (by decide) (by decide) (by decide) (by decide) (by decide)
    (by decide) (by decide) (by decide) (by decide) (fun h => h)
